import Mathlib

/-!
Verification of the `xstd` iterator-adaptor library (range / strided / zip
adaptors and the tuple-algorithm toolkit they are built on).

The C++ sources are shallowly embedded:

* A heterogeneous `std::tuple` is embedded as a Lean `List`.  The tuple
  algorithms (`for_each`, `transform`, `any_of`, `all_of`, `min`, `perform`)
  are variadic templates instantiated by the zip iterator at one component
  type per sequence; for the comparison/arithmetic claims every component is
  an iterator over caller-owned storage, which we embed as its integer
  offset, so a tuple of component iterators becomes a `List Int`.
* A C++ random-access iterator into a sequence is embedded as its integer
  position (`Int`); `std::distance(a, b)` is `b - a` on positions and
  iterator equality is position equality.
* C++ integer division (`/` on `ptrdiff_t` operands, which truncates toward
  zero) is embedded as `Int.tdiv`.
* A stateful C++ lambda captured by reference inside `for_each` is embedded
  by explicit state passing (a fold).
* A template whose instantiation is ill-formed for some arities (a pack
  expansion over packs of different lengths, or `std::get<I>` past the end
  of a tuple) is embedded as a function returning `Option`, with `none` for
  the arities the source rejects at compile time.
-/

/-! ## Tuple Algorithm Toolkit (zip.hpp / algorithm.hpp) -/

/-- Models `xstd::min(tuple)` (zip.hpp lines 95-101): all elements are cast to
their common type and reduced with `std::min` over an initializer list, which
returns the least value.  Calling it on an empty tuple is a documented
precondition violation; the `[]` branch is unreachable junk kept only to make
the function total. -/
def xstdMin : List Int → Int
  | [] => 0
  | x :: xs => xs.foldl min x

/-- Models unary `xstd::any_of(t, p)` (zip.hpp lines 198-202): the fold
expression `(p(xs) || ...)`, a right fold of `||` over the mapped tuple
(empty pack yields `false`). -/
def any_of (t : List Bool) : Bool := t.foldr (· || ·) false

/-- Models unary `xstd::all_of(t, p)` (zip.hpp lines 164-168): the fold
expression `(p(xs) && ...)` (empty pack yields `true`).  The predicate is
pre-applied, so the tuple is already a tuple of booleans. -/
def all_of (t : List Bool) : Bool := t.foldr (· && ·) true

/-- Models two-tuple `xstd::transform(t1, t2, f)` (zip.hpp lines 434-438 and
`detail::transform_impl`, lines 61-64).  The implementation expands
`std::result_of_t<F(Ts1, Ts2)>...` — a single pack expansion over *both*
parameter packs — and reads `std::get<Is>(t2)` for every index of `t1`, so
the template only instantiates when the two tuples have the same arity; any
other pair of arities is ill-formed (no result is produced), embedded here
as `none`.  When it does instantiate, the result is
`f(t1[i], t2[i])` for `i = 0 .. |t1|-1` in index order. -/
def transform2 (t1 : List α) (t2 : List β) (f : α → β → γ) : Option (List γ) :=
  if t1.length = t2.length then some (List.zipWith f t1 t2) else none

/-- Models two-tuple `xstd::any_of(t1, t2, p)` (zip.hpp lines 215-220):
`transform` the two tuples with the predicate, then unary `any_of` with the
identity predicate. -/
def any_of2 (t1 : List α) (t2 : List β) (p : α → β → Bool) : Option Bool :=
  (transform2 t1 t2 p).map any_of

/-- Models two-tuple `xstd::all_of(t1, t2, p)` (zip.hpp lines 181-186):
`transform` then unary `all_of` with the identity predicate. -/
def all_of2 (t1 : List α) (t2 : List β) (p : α → β → Bool) : Option Bool :=
  (transform2 t1 t2 p).map all_of

/-- Models unary `xstd::for_each(t, p)` (zip.hpp lines 267-272) applied with a
stateful functor: the functor's captured state is passed explicitly, so the
left-to-right traversal of the tuple is a left fold. -/
def for_each (t : List α) (f : σ → α → σ) (s : σ) : σ := t.foldl f s

/-- Models `xstd::perform(t, index, action)` (zip.hpp lines 449-459): a
`for_each` with a lambda holding a `current_index` counter that invokes
`action` on the element whose position equals `index`.  The embedding records
the sequence of elements the action is invoked on (in invocation order)
instead of performing a side effect. -/
def perform_calls (t : List α) (index : Nat) : List α :=
  (for_each t
    (fun st v => (st.1 + 1, if index = st.1 then st.2 ++ [v] else st.2))
    ((0 : Nat), ([] : List α))).2

/-! ## Range adaptor (range.hpp) -/

/-- Models `xstd::range_iterator<Incrementable>` (range.hpp): a current value
and a step, both embedded at an integral `Incrementable` type. -/
structure range_iterator where
  value : Int
  step  : Int
  deriving Repr, DecidableEq

/-- Models `range_iterator::operator++` (range.hpp lines 64-67):
`value_ += step_`. -/
def range_iterator.inc (x : range_iterator) : range_iterator :=
  { x with value := x.value + x.step }

/-- Models `operator==(range_iterator, range_iterator)` (range.hpp lines
104-107): `x.step_ > 0 ? (y.value_ < x.value_) || (y.value_ == x.value_)
: (x.value_ < y.value_)`.  The asserted precondition `x.step_ == y.step_`
appears as a hypothesis of the theorems. -/
def range_iterator.eqB (x y : range_iterator) : Bool :=
  if 0 < x.step then decide (y.value < x.value) || (y.value == x.value)
  else decide (x.value < y.value)

/-- Models `operator-(range_iterator, range_iterator)` (range.hpp lines
113-116): `(x.value_ - y.value_) / x.step_`, C++ integer division truncating
toward zero. -/
def range_iterator.sub (x y : range_iterator) : Int :=
  (x.value - y.value).tdiv x.step

/-- Models `xstd::range(first, last, step)` (range.hpp lines 234-237) followed
by `range_proxy::begin()/end()` (lines 142-144): the pair of independent
cursors `(range_iterator(first, step), range_iterator(last, step))`. -/
def range (first last step : Int) : range_iterator × range_iterator :=
  (⟨first, step⟩, ⟨last, step⟩)

/-- Increment-until-equal traversal of a range cursor pair, as performed by a
range-based for loop over the proxy: while the cursor does not compare equal
to `last`, yield `operator*` (the current value, range.hpp line 98) and apply
`operator++`.  Fuel makes the loop total; every theorem supplies enough fuel
for the loop to reach its fixed point. -/
def rangeTraverse : Nat → range_iterator → range_iterator → List Int
  | 0, _, _ => []
  | fuel + 1, cur, last =>
    if cur.eqB last then [] else cur.value :: rangeTraverse fuel cur.inc last

/-! ## Strided adaptor (strided.hpp) -/

/-- Models `xstd::strided_iterator<Iterator>` (strided.hpp): the wrapped
random-access iterator is embedded as its integer offset `pos` into the
underlying sequence, together with the stride. -/
structure strided_iterator where
  pos    : Int
  stride : Int
  deriving Repr, DecidableEq

/-- Models `strided_iterator::operator++` (strided.hpp lines 69-72):
`std::advance(iterator_, stride_)`. -/
def strided_iterator.inc (x : strided_iterator) : strided_iterator :=
  { x with pos := x.pos + x.stride }

/-- Models `operator-(strided_iterator, strided_iterator)` (strided.hpp lines
135-138): `std::distance(y.iterator_, x.iterator_) / x.stride_`, i.e. the
underlying offset difference divided by the stride with C++ truncating
division.  The asserted precondition `x.stride_ == y.stride_` appears as a
hypothesis of the theorems. -/
def strided_iterator.sub (x y : strided_iterator) : Int :=
  (x.pos - y.pos).tdiv x.stride

/-- Models `operator==(strided_iterator, strided_iterator)` (strided.hpp lines
120-123): `(x - y) == 0`. -/
def strided_iterator.eqB (x y : strided_iterator) : Bool :=
  x.sub y == 0

/-- Models `operator<(strided_iterator, strided_iterator)` (strided.hpp lines
130-133): `(std::distance(x.iterator_, y.iterator_) / x.stride_) > 0`. -/
def strided_iterator.ltB (x y : strided_iterator) : Bool :=
  decide (0 < (y.pos - x.pos).tdiv x.stride)

/-- Models `strided_proxy::size()` (strided.hpp line 183):
`std::distance(first_, last_) / stride_`. -/
def strided_size (first last stride : Int) : Int :=
  (last - first).tdiv stride

/-- Increment-until-equal traversal of a strided cursor pair, yielding the
underlying position of each visited cursor (dereferencing a visited cursor
reads the underlying sequence at exactly that offset, strided.hpp line 113).
Fuel makes the loop total. -/
def stridedTraverse : Nat → strided_iterator → strided_iterator → List Int
  | 0, _, _ => []
  | fuel + 1, cur, last =>
    if cur.eqB last then [] else cur.pos :: stridedTraverse fuel cur.inc last

/-! ## Zip adaptor (zip.hpp) -/

/-- Models `operator==(zip_iterator, zip_iterator)` (zip.hpp lines 582-586):
`any_of` over the two component-iterator tuples with the predicate `a == b`.
Two cursors of the same `zip_iterator` type always hold tuples of the same
arity, so `transform` inside `any_of` instantiates; the `getD` default is
unreachable junk for the arity-mismatched case no C++ program can form. -/
def zip_eq (x y : List Int) : Bool :=
  (any_of2 x y (fun a b => a == b)).getD false

/-- Models `operator<(zip_iterator, zip_iterator)` (zip.hpp lines 590-592):
`all_of` over the two component tuples with the predicate `a < b`. -/
def zip_lt (x y : List Int) : Bool :=
  (all_of2 x y (fun a b => decide (a < b))).getD false

/-- Models `operator-(zip_iterator, zip_iterator)` (zip.hpp lines 594-598):
`transform` the component tuples with `a - b`, then take `xstd::min` of the
resulting difference tuple. -/
def zip_sub (x y : List Int) : Int :=
  ((transform2 x y (fun a b => a - b)).map xstdMin).getD 0

/-- Models `zip_iterator::operator++` (zip.hpp lines 538-541):
`for_each(iterators_, iter++)` advances every component iterator once. -/
def zip_inc (x : List Int) : List Int := x.map (· + 1)

/-- Increment-until-equal traversal of a zip cursor pair, yielding the tuple
of component positions of each visited cursor (dereferencing, zip.hpp lines
574-576, reads each underlying sequence at its component's position).  Fuel
makes the loop total. -/
def zipTraverse : Nat → List Int → List Int → List (List Int)
  | 0, _, _ => []
  | fuel + 1, cur, last =>
    if zip_eq cur last then [] else cur :: zipTraverse fuel (zip_inc cur) last

/-! ## Helper lemmas -/

theorem transform2_eq_some {t1 : List α} {t2 : List β} (f : α → β → γ)
    (h : t1.length = t2.length) :
    transform2 t1 t2 f = some (List.zipWith f t1 t2) := by
  simp [transform2, h]

theorem any_of_eq_any (l : List Bool) : any_of l = l.any id := by
  induction l with
  | nil => rfl
  | cons x xs ih => simp [any_of, List.any_cons] at ih ⊢; rw [ih]

theorem all_of_eq_all (l : List Bool) : all_of l = l.all id := by
  induction l with
  | nil => rfl
  | cons x xs ih => simp [all_of, List.all_cons] at ih ⊢; rw [ih]

theorem tdiv_eq_zero_iff_natAbs_lt (a b : Int) (hb : b ≠ 0) :
    a.tdiv b = 0 ↔ a.natAbs < b.natAbs := by
  have habs : (a.tdiv b).natAbs = a.natAbs / b.natAbs := Int.natAbs_tdiv a b
  have hbpos : 0 < b.natAbs := Int.natAbs_pos.mpr hb
  constructor
  · intro h
    rw [h] at habs
    exact (Nat.div_eq_zero_iff hbpos).mp habs.symm
  · intro h
    rw [Nat.div_eq_of_lt h] at habs
    exact Int.natAbs_eq_zero.mp habs

theorem tdiv_ne_zero_of_natAbs_le (a b : Int) (hb : b ≠ 0)
    (h : b.natAbs ≤ a.natAbs) : a.tdiv b ≠ 0 := by
  intro hz
  exact absurd ((tdiv_eq_zero_iff_natAbs_lt a b hb).mp hz) (by omega)

theorem perform_fold_miss (k : Nat) (t : List α) : ∀ (i : Nat) (acc : List α),
    (k < i ∨ t.length ≤ k - i) →
    (List.foldl (fun st v => (st.1 + 1, if k = st.1 then st.2 ++ [v] else st.2))
      (i, acc) t).2 = acc := by
  induction t with
  | nil => intro i acc _; rfl
  | cons v vs ih =>
    intro i acc h
    simp only [List.foldl_cons]
    have hne : k ≠ i := by simp at h; omega
    rw [if_neg hne]
    exact ih (i + 1) acc (by simp at h ⊢; omega)

theorem perform_fold_hit (k : Nat) (t : List α) : ∀ (i : Nat) (acc : List α)
    (_ : i ≤ k) (h2 : k - i < t.length),
    (List.foldl (fun st v => (st.1 + 1, if k = st.1 then st.2 ++ [v] else st.2))
      (i, acc) t).2 = acc ++ [t[k - i]] := by
  induction t with
  | nil => intro i acc _ h2; simp at h2
  | cons v vs ih =>
    intro i acc h1 h2
    simp only [List.foldl_cons]
    by_cases hk : k = i
    · subst hk
      rw [if_pos rfl, perform_fold_miss k vs (k + 1) (acc ++ [v]) (Or.inl (by omega))]
      simp
    · rw [if_neg hk]
      obtain ⟨m, hm⟩ : ∃ m, k - i = m + 1 := ⟨k - i - 1, by omega⟩
      have h2' : k - (i + 1) < vs.length := by simp at h2; omega
      rw [ih (i + 1) acc (by omega) h2']
      have hmi : k - (i + 1) = m := by omega
      simp only [hm, hmi, List.getElem_cons_succ]

/-! ## Claim theorems -/

/-- C2 counterexample: the claim states that for cursors with the same
nonzero step, `a == b` holds iff (`step>0` and `b.value <= a.value`) or
(`step<0` and `a.value <= b.value`).  At `a = b = range_iterator(0, -1)`
(same nonzero step `-1`) the claimed right-hand side holds
(`step < 0` and `a.value <= b.value`), but the source's `operator==`
(range.hpp lines 104-107) takes the non-positive branch `x.value_ < y.value_`,
which is strict, and returns `false`. -/
theorem range_crossing_equality_cex :
    range_iterator.eqB ⟨0, -1⟩ ⟨0, -1⟩ = false ∧
      ((-1 : Int) < 0 ∧ (0 : Int) ≤ 0) := by
  exact ⟨by decide, by decide, by decide⟩

/-- C2 (amended): for range cursors with the same nonzero step, `a == b`
holds iff (`step>0` and `b.value <= a.value`) or (`step<0` and
`a.value < b.value`) — the negative-step branch is a strict comparison, not
the claimed `<=`. -/
theorem range_crossing_equality_amended (a b : range_iterator)
    (hs : a.step = b.step) (h0 : a.step ≠ 0) :
    a.eqB b = true ↔
      (0 < a.step ∧ b.value ≤ a.value) ∨ (a.step < 0 ∧ a.value < b.value) := by
  unfold range_iterator.eqB
  by_cases h : 0 < a.step
  · simp only [if_pos h, Bool.or_eq_true, decide_eq_true_eq, beq_iff_eq]
    constructor
    · rintro (h1 | h1) <;> exact Or.inl ⟨h, by omega⟩
    · rintro (⟨_, h1⟩ | ⟨h1, _⟩) <;> omega
  · have hneg : a.step < 0 := by omega
    simp only [if_neg h, decide_eq_true_eq]
    constructor
    · intro h1
      exact Or.inr ⟨hneg, h1⟩
    · rintro (⟨h1, _⟩ | ⟨_, h2⟩)
      · omega
      · exact h2

/-- C2 witness: the amended equivalence applied at the concrete cursor pair
`a = range_iterator(3, 1)`, `b = range_iterator(2, 1)`. -/
theorem range_crossing_equality_witness :
    range_iterator.eqB ⟨3, 1⟩ ⟨2, 1⟩ = true :=
  (range_crossing_equality_amended ⟨3, 1⟩ ⟨2, 1⟩ rfl (by decide)).mpr
    (Or.inl ⟨by decide, by decide⟩)

/-- C7: the claim states that `transform(t1, t2, f)` produces a tuple of
length `min(|t1|, |t2|)`, truncating to the shorter tuple.  The source
(zip.hpp lines 434-438 and 61-64) instead expands the result-type pack
`std::result_of_t<F(Ts1, Ts2)>...` over both parameter packs at once and
indexes both tuples over `t1`'s indices, so tuples of different lengths do
not instantiate at all — contradicting the file's own header comment
(zip.hpp lines 28-31: "If two tuples are different length the resulting
tuple provided as the answer will only be of the shortest length").  At the
failing input `t1 = (1, 2)`, `t2 = (10,)` no tuple is produced, while for
the equal-length input `t1 = (1, 2)`, `t2 = (10, 20)` the per-index results
are produced in index order. -/
theorem transform_two_tuple_mismatch :
    transform2 [(1 : Int), 2] [(10 : Int)] (· + ·) = none ∧
      transform2 [(1 : Int), 2] [(10 : Int), 20] (· + ·) = some [11, 22] := by
  exact ⟨by decide, by decide⟩

/-- C8: `perform(t, k, action)` invokes the action exactly once, on the
element at position `k`, when `k < |t|`, and invokes it zero times (a silent
no-op) when `k >= |t|`.  `perform_calls` records the elements the action is
invoked on, in invocation order. -/
theorem perform_bounds (t : List α) (k : Nat) :
    (∀ h : k < t.length, perform_calls t k = [t.get ⟨k, h⟩]) ∧
      (t.length ≤ k → perform_calls t k = []) := by
  constructor
  · intro h
    have := perform_fold_hit k t 0 [] (Nat.zero_le k) (by simpa using h)
    simpa [perform_calls, for_each] using this
  · intro h
    have := perform_fold_miss k t 0 [] (Or.inr (by simpa using h))
    simpa [perform_calls, for_each] using this

/-- C8 witness: `perform` on the tuple `(10, 20, 30)` invokes the action
exactly once at index `1` (on the element `20`) and zero times at the
out-of-range index `5`. -/
theorem perform_bounds_witness :
    perform_calls [(10 : Int), 20, 30] 1 = [20] ∧
      perform_calls [(10 : Int), 20, 30] 5 = [] :=
  ⟨by have := (perform_bounds [(10 : Int), 20, 30] 1).1 (by decide)
      simpa using this,
   (perform_bounds [(10 : Int), 20, 30] 5).2 (by decide)⟩

theorem foldl_min_le_init (l : List Int) : ∀ a : Int, l.foldl min a ≤ a := by
  induction l with
  | nil => intro a; simp
  | cons x xs ih =>
    intro a
    simp only [List.foldl_cons]
    exact le_trans (ih (min a x)) (min_le_left a x)

theorem foldl_min_le_mem (l : List Int) : ∀ a v : Int, v ∈ l → l.foldl min a ≤ v := by
  induction l with
  | nil => intro a v hv; simp at hv
  | cons x xs ih =>
    intro a v hv
    simp only [List.foldl_cons]
    rcases List.mem_cons.mp hv with h | h
    · subst h
      exact le_trans (foldl_min_le_init xs (min a v)) (min_le_right a v)
    · exact ih (min a x) v h

theorem foldl_min_mem (l : List Int) : ∀ a : Int, l.foldl min a = a ∨ l.foldl min a ∈ l := by
  induction l with
  | nil => intro a; exact Or.inl rfl
  | cons x xs ih =>
    intro a
    simp only [List.foldl_cons]
    rcases ih (min a x) with h | h
    · by_cases hax : a ≤ x
      · left; rw [h, min_eq_left hax]
      · right; rw [h, min_eq_right (le_of_not_le hax)]
        exact List.mem_cons_self x xs
    · right
      exact List.mem_cons_of_mem x h

theorem xstdMin_spec (l : List Int) (hne : l ≠ []) :
    xstdMin l ∈ l ∧ ∀ v ∈ l, xstdMin l ≤ v := by
  match l, hne with
  | x :: xs, _ =>
    constructor
    · rcases foldl_min_mem xs x with h | h
      · rw [xstdMin, h]; exact List.mem_cons_self x xs
      · rw [xstdMin]; exact List.mem_cons_of_mem x h
    · intro v hv
      rcases List.mem_cons.mp hv with h | h
      · rw [xstdMin, h]; exact foldl_min_le_init xs x
      · rw [xstdMin]; exact foldl_min_le_mem xs x v h

/-- C9: strided cursor equality is coarse.  For cursors sharing the same
nonzero stride, `x == y` holds iff the truncated quotient
`(pos(x) - pos(y)) / stride` is zero, equivalently iff the absolute
underlying distance is less than `|stride|`; under that condition neither
`x < y` nor `y < x` holds. -/
theorem strided_equality_coarse (x y : strided_iterator)
    (hs : x.stride = y.stride) (h0 : x.stride ≠ 0) :
    (x.eqB y = true ↔ (x.pos - y.pos).tdiv x.stride = 0) ∧
      (x.eqB y = true ↔ (x.pos - y.pos).natAbs < x.stride.natAbs) ∧
      ((x.pos - y.pos).natAbs < x.stride.natAbs →
        x.eqB y = true ∧ x.ltB y = false ∧ y.ltB x = false) := by
  have h1 : x.eqB y = true ↔ (x.pos - y.pos).tdiv x.stride = 0 := by
    simp [strided_iterator.eqB, strided_iterator.sub]
  have h2 := tdiv_eq_zero_iff_natAbs_lt (x.pos - y.pos) x.stride h0
  refine ⟨h1, h1.trans h2, fun hlt => ⟨(h1.trans h2).mpr hlt, ?_, ?_⟩⟩
  · have habs : (y.pos - x.pos).natAbs = (x.pos - y.pos).natAbs := by
      rw [← Int.natAbs_neg (y.pos - x.pos), neg_sub]
    have hz : (y.pos - x.pos).tdiv x.stride = 0 :=
      (tdiv_eq_zero_iff_natAbs_lt _ _ h0).mpr (by omega)
    simp [strided_iterator.ltB, hz]
  · have hz : (x.pos - y.pos).tdiv y.stride = 0 := by
      rw [← hs]
      exact h2.mpr hlt
    simp [strided_iterator.ltB, hz]

/-- C9 witness: cursors at underlying positions 1 and 0 with stride 3 compare
equal and neither orders below the other. -/
theorem strided_equality_coarse_witness :
    strided_iterator.eqB ⟨1, 3⟩ ⟨0, 3⟩ = true ∧
      strided_iterator.ltB ⟨1, 3⟩ ⟨0, 3⟩ = false ∧
      strided_iterator.ltB ⟨0, 3⟩ ⟨1, 3⟩ = false :=
  (strided_equality_coarse ⟨1, 3⟩ ⟨0, 3⟩ rfl (by decide)).2.2 (by decide)

/-- C1: zip equality is existential over components — two zip cursors over
the same component arity compare equal iff some pair of corresponding
component iterators compares equal — and consequently, for component
sequences of lengths 5 and 3, traversing `zip(A, B)` from `begin()` to
`end()` by repeated increment yields exactly 3 tuples (component positions
`(0,0), (1,1), (2,2)`) and never visits the 4th or 5th element of A (every
visited component position is below 3). -/
theorem zip_shortest_wins (x y : List Int) (h : x.length = y.length) :
    (zip_eq x y = true ↔
        ∃ i, ∃ hx : i < x.length, ∃ hy : i < y.length, x[i] = y[i]) ∧
      zipTraverse 5 [0, 0] [5, 3] = [[0, 0], [1, 1], [2, 2]] ∧
      (zipTraverse 5 [0, 0] [5, 3]).length = 3 ∧
      (∀ c ∈ zipTraverse 5 [0, 0] [5, 3], ∀ p ∈ c, p < 3) := by
  refine ⟨?_, by decide, by decide, by decide⟩
  rw [zip_eq, any_of2, transform2_eq_some _ h]
  show any_of (List.zipWith (fun a b => a == b) x y) = true ↔ _
  rw [any_of_eq_any, List.any_eq_true]
  constructor
  · rintro ⟨b, hb, hbt⟩
    obtain ⟨i, hi, hig⟩ := List.mem_iff_getElem.mp hb
    rw [List.length_zipWith, lt_inf_iff] at hi
    obtain ⟨hx, hy⟩ := hi
    refine ⟨i, hx, hy, ?_⟩
    rw [List.getElem_zipWith] at hig
    rw [← beq_iff_eq (a := x[i]) (b := y[i])]
    rw [hig]
    exact hbt
  · rintro ⟨i, hx, hy, hxy⟩
    refine ⟨true, ?_, rfl⟩
    rw [List.mem_iff_getElem]
    refine ⟨i, by rw [List.length_zipWith, lt_inf_iff]; exact ⟨hx, hy⟩, ?_⟩
    rw [List.getElem_zipWith]
    exact beq_iff_eq.mpr hxy

/-- C1 witness: the existential equality applied to the concrete cursor pair
`([0], [0])`: the single component pair compares equal, so the composite
cursors compare equal. -/
theorem zip_shortest_wins_witness : zip_eq [0] [0] = true :=
  (zip_shortest_wins [0] [0] rfl).1.mpr ⟨0, by decide, by decide, rfl⟩

/-- C6: zip ordering is universal over components — `x < y` holds iff every
pair of corresponding component iterators satisfies `<` (the opposite
quantifier from zip equality). -/
theorem zip_ordering_universal (x y : List Int) (h : x.length = y.length) :
    zip_lt x y = true ↔
      ∀ i (hx : i < x.length) (hy : i < y.length), x[i] < y[i] := by
  rw [zip_lt, all_of2, transform2_eq_some _ h]
  show all_of (List.zipWith (fun a b => decide (a < b)) x y) = true ↔ _
  rw [all_of_eq_all, List.all_eq_true]
  constructor
  · intro hall i hx hy
    have hi : i < (List.zipWith (fun a b : Int => decide (a < b)) x y).length := by
      rw [List.length_zipWith, lt_inf_iff]
      exact ⟨hx, hy⟩
    have hmem := List.getElem_mem hi
    have := hall _ hmem
    rw [List.getElem_zipWith] at this
    exact of_decide_eq_true this
  · intro hall b hb
    obtain ⟨i, hi, hig⟩ := List.mem_iff_getElem.mp hb
    rw [List.length_zipWith, lt_inf_iff] at hi
    obtain ⟨hx, hy⟩ := hi
    rw [List.getElem_zipWith] at hig
    rw [← hig]
    exact decide_eq_true (hall i hx hy)

/-- C6 witness: the universal ordering applied at the concrete cursor pair
`([1, 2], [3, 3])` (both component pairs satisfy `<`) and its converse
direction is exercised through the equivalence. -/
theorem zip_ordering_universal_witness : zip_lt [1, 2] [3, 3] = true :=
  (zip_ordering_universal [1, 2] [3, 3] rfl).mpr (by decide)

/-- C5: zip distance is the minimum component distance — for zip cursors of
the same component arity (nonempty, as required by the zip iterator's use of
`xstd::min`), `x - y` is a lower bound of all per-component distances and is
attained by one of them. -/
theorem zip_distance_min (x y : List Int) (h : x.length = y.length)
    (hne : x ≠ []) :
    (∀ i (hx : i < x.length) (hy : i < y.length), zip_sub x y ≤ x[i] - y[i]) ∧
      (∃ i, ∃ hx : i < x.length, ∃ hy : i < y.length,
        zip_sub x y = x[i] - y[i]) := by
  have hz : zip_sub x y = xstdMin (List.zipWith (fun a b => a - b) x y) := by
    rw [zip_sub, transform2_eq_some _ h]
    rfl
  have hzne : List.zipWith (fun a b : Int => a - b) x y ≠ [] := by
    intro hcon
    have hl := List.length_zipWith (fun a b : Int => a - b) x y
    rw [hcon] at hl
    have hx0 : x.length ≠ 0 := fun hc => hne (List.length_eq_zero.mp hc)
    rw [← h] at hl
    simp at hl
    omega
  obtain ⟨hmem, hle⟩ := xstdMin_spec _ hzne
  constructor
  · intro i hx hy
    rw [hz]
    have hi : i < (List.zipWith (fun a b : Int => a - b) x y).length := by
      rw [List.length_zipWith, lt_inf_iff]
      exact ⟨hx, hy⟩
    have hgm := List.getElem_mem hi
    have hg : (List.zipWith (fun a b : Int => a - b) x y)[i] = x[i] - y[i] :=
      List.getElem_zipWith
    rw [hg] at hgm
    exact hle _ hgm
  · obtain ⟨i, hi, hig⟩ := List.mem_iff_getElem.mp hmem
    rw [List.length_zipWith, lt_inf_iff] at hi
    obtain ⟨hx, hy⟩ := hi
    rw [List.getElem_zipWith] at hig
    exact ⟨i, hx, hy, by rw [hz, ← hig]⟩

/-- C5 witness: the minimum-distance bound applied to the concrete cursor
pair `([7, 9], [2, 3])`: the composite distance is bounded by the first
component distance. -/
theorem zip_distance_min_witness :
    zip_sub [7, 9] [2, 3] ≤ [(7 : Int), 9][0] - [(2 : Int), 3][0] :=
  (zip_distance_min [7, 9] [2, 3] rfl (by decide)).1 0 (by decide) (by decide)

theorem rangeTraverse_spec (last step : Int) (hs : 0 < step) :
    ∀ (n : Nat) (first : Int), ((last - first + step - 1) / step).toNat = n →
      ∀ fuel, n ≤ fuel →
        rangeTraverse fuel ⟨first, step⟩ ⟨last, step⟩ =
          (List.range n).map (fun i : Nat => first + (i : Int) * step) := by
  intro n
  induction n with
  | zero =>
    intro first hn fuel _
    have hle : last ≤ first := by
      by_contra hcon
      push_neg at hcon
      have h1 : (1 : Int) ≤ (last - first + step - 1) / step := by
        rw [Int.le_ediv_iff_mul_le hs]
        omega
      rw [Int.toNat_eq_zero] at hn
      omega
    cases fuel with
    | zero => rfl
    | succ f =>
      have heq : range_iterator.eqB ⟨first, step⟩ ⟨last, step⟩ = true := by
        simp only [range_iterator.eqB, if_pos hs, Bool.or_eq_true,
          decide_eq_true_eq, beq_iff_eq]
        omega
      simp [rangeTraverse, heq]
  | succ n ih =>
    intro first hn fuel hfuel
    obtain ⟨f, rfl⟩ : ∃ f, fuel = f + 1 := ⟨fuel - 1, by omega⟩
    have h0 : 0 ≤ (last - first + step - 1) / step := by
      by_contra hcon
      push_neg at hcon
      rw [Int.toNat_eq_zero.mpr (le_of_lt hcon)] at hn
      omega
    have hq : (last - first + step - 1) / step = (n : Int) + 1 := by
      have h2 : (((last - first + step - 1) / step).toNat : Int) =
          (last - first + step - 1) / step := Int.toNat_of_nonneg h0
      rw [hn] at h2
      push_cast at h2
      exact h2.symm
    have hlt : first < last := by
      have h1 : (1 : Int) ≤ (last - first + step - 1) / step := by rw [hq]; omega
      rw [Int.le_ediv_iff_mul_le hs] at h1
      omega
    have heq : range_iterator.eqB ⟨first, step⟩ ⟨last, step⟩ = false := by
      simp only [range_iterator.eqB, if_pos hs, Bool.or_eq_false_iff,
        decide_eq_false_iff_not, beq_eq_false_iff_ne, ne_eq]
      omega
    have hinc : (⟨first, step⟩ : range_iterator).inc = ⟨first + step, step⟩ := rfl
    have hnext : ((last - (first + step) + step - 1) / step).toNat = n := by
      have h3 : last - (first + step) + step - 1 =
          (last - first + step - 1) + (-1) * step := by ring
      rw [h3, Int.add_mul_ediv_right _ _ (ne_of_gt hs), hq]
      omega
    simp only [rangeTraverse, heq, Bool.false_eq_true, if_false, hinc]
    rw [ih (first + step) hnext f (by omega)]
    rw [List.range_succ_eq_map, List.map_cons, List.map_map]
    congr 1
    · simp
    · apply List.map_congr_left
      intro a _
      simp only [Function.comp_apply]
      push_cast
      ring

/-- C3: for `first < last` and positive `step`, the increment-until-equal
traversal of `range(first, last, step)` yields the list whose `i`-th element
is `first + i*step` and whose length `n` is the ceiling of
`(last-first)/step` — characterised by `(n-1)*step < last-first <= n*step` —
and every yielded element (in particular the last) is strictly below
`last`. -/
theorem range_iteration_law (first last step : Int) (hs : 0 < step)
    (hlt : first < last) :
    (∀ fuel, ((last - first + step - 1) / step).toNat ≤ fuel →
      rangeTraverse fuel ⟨first, step⟩ ⟨last, step⟩ =
        (List.range ((last - first + step - 1) / step).toNat).map
          (fun i : Nat => first + (i : Int) * step)) ∧
      ((((last - first + step - 1) / step).toNat : Int) - 1) * step <
        last - first ∧
      last - first ≤ (((last - first + step - 1) / step).toNat : Int) * step ∧
      ∀ i < ((last - first + step - 1) / step).toNat,
        first + (i : Int) * step < last := by
  have hqe := Int.ediv_add_emod (last - first + step - 1) step
  have hr0 : 0 ≤ (last - first + step - 1) % step :=
    Int.emod_nonneg _ (ne_of_gt hs)
  have hr1 : (last - first + step - 1) % step < step :=
    Int.emod_lt_of_pos _ hs
  have hq1 : (1 : Int) ≤ (last - first + step - 1) / step := by
    rw [Int.le_ediv_iff_mul_le hs]
    omega
  have hcast : ((((last - first + step - 1) / step).toNat : Int)) =
      (last - first + step - 1) / step := Int.toNat_of_nonneg (by omega)
  have hceil1 : ((((last - first + step - 1) / step).toNat : Int) - 1) * step <
      last - first := by
    rw [hcast]
    linarith [hqe, hr0]
  have hceil2 : last - first ≤
      (((last - first + step - 1) / step).toNat : Int) * step := by
    rw [hcast]
    linarith [hqe, hr1]
  refine ⟨fun fuel hf => rangeTraverse_spec last step hs _ first rfl fuel hf,
    hceil1, hceil2, ?_⟩
  intro i hi
  have hii : (i : Int) ≤ (((last - first + step - 1) / step).toNat : Int) - 1 := by
    omega
  have hmul : (i : Int) * step ≤
      ((((last - first + step - 1) / step).toNat : Int) - 1) * step :=
    mul_le_mul_of_nonneg_right hii (le_of_lt hs)
  linarith [hmul, hceil1]

/-- C3 witness: `range(0, 5, 2)` traversed with fuel 3 yields the 3 =
ceil(5/2) elements `0 + i*2`. -/
theorem range_iteration_law_witness :
    rangeTraverse 3 ⟨0, 2⟩ ⟨5, 2⟩ =
      (List.range (((5 : Int) - 0 + 2 - 1) / 2).toNat).map
        (fun i : Nat => 0 + (i : Int) * 2) :=
  (range_iteration_law 0 5 2 (by decide) (by decide)).1 3 (by decide)

/-- C10: range cursor distance truncates.  For `step > 0` not dividing
`last - first` (and `first < last`), `end() - begin()` of
`range(first, last, step)` equals the floor of `(last-first)/step`, which is
one less than the ceiling number of elements that increment-until-equal
iteration yields. -/
theorem range_distance_truncates (first last step : Int) (hs : 0 < step)
    (hlt : first < last) (hnd : ¬ step ∣ (last - first)) :
    range_iterator.sub ⟨last, step⟩ ⟨first, step⟩ = (last - first) / step ∧
      (last - first) / step + 1 = (last - first + step - 1) / step ∧
      ∀ fuel, ((last - first + step - 1) / step).toNat ≤ fuel →
        (rangeTraverse fuel ⟨first, step⟩ ⟨last, step⟩).length =
          (range_iterator.sub ⟨last, step⟩ ⟨first, step⟩).toNat + 1 := by
  have hsub : range_iterator.sub ⟨last, step⟩ ⟨first, step⟩ =
      (last - first) / step := by
    show (last - first).tdiv step = (last - first) / step
    exact Int.tdiv_eq_ediv (by omega) (le_of_lt hs)
  have hqe := Int.ediv_add_emod (last - first) step
  have hr0 : 0 ≤ (last - first) % step := Int.emod_nonneg _ (ne_of_gt hs)
  have hr1 : (last - first) % step < step := Int.emod_lt_of_pos _ hs
  have hrne : (last - first) % step ≠ 0 := by
    intro hcon
    exact hnd (Int.dvd_iff_emod_eq_zero.mpr hcon)
  have hceil : (last - first) / step + 1 = (last - first + step - 1) / step := by
    have hnum : last - first + step - 1 =
        ((last - first) % step - 1) + ((last - first) / step + 1) * step := by
      linarith [hqe]
    have hz : ((last - first) % step - 1) / step = 0 :=
      Int.ediv_eq_zero_of_lt (by omega) (by omega)
    rw [hnum, Int.add_mul_ediv_right _ _ (ne_of_gt hs), hz]
    omega
  have hq0 : 0 ≤ (last - first) / step :=
    Int.ediv_nonneg (by omega) (le_of_lt hs)
  refine ⟨hsub, hceil, ?_⟩
  intro fuel hf
  rw [rangeTraverse_spec last step hs _ first rfl fuel hf, List.length_map,
    List.length_range, hsub]
  omega

/-- C10 witness: for `range(0, 5, 2)` (step 2 does not divide 5),
`end() - begin()` is `5 / 2 = 2` with floor division. -/
theorem range_distance_truncates_witness :
    range_iterator.sub ⟨5, 2⟩ ⟨0, 2⟩ = ((5 : Int) - 0) / 2 :=
  (range_distance_truncates 0 5 2 (by decide) (by decide) (by decide)).1

theorem stridedTraverse_spec (L s : Nat) (hs : 0 < s) :
    ∀ (n k : Nat), k + n = L / s →
      ∀ fuel, n ≤ fuel →
        stridedTraverse fuel ⟨((k * s : Nat) : Int), (s : Int)⟩
            ⟨(L : Int), (s : Int)⟩ =
          (List.range' k n).map (fun i : Nat => ((i * s : Nat) : Int)) := by
  have habs : ∀ m : Nat, m ≤ L → (((m : Nat) : Int) - (L : Int)).natAbs = L - m := by
    intro m hm
    omega
  have hdm := Nat.div_add_mod L s
  have hml : L % s < s := Nat.mod_lt L hs
  have hsz : ((s : Int)) ≠ 0 := (by exact_mod_cast hs : (0 : Int) < (s : Int)).ne'
  intro n
  induction n with
  | zero =>
    intro k hk fuel _
    have hkq : k = L / s := by omega
    have h1 : s * (L / s) = k * s := by rw [hkq]; ring
    have hle : k * s ≤ L := by omega
    have heq : strided_iterator.eqB ⟨((k * s : Nat) : Int), (s : Int)⟩
        ⟨(L : Int), (s : Int)⟩ = true := by
      have hz : (((k * s : Nat) : Int) - (L : Int)).tdiv (s : Int) = 0 := by
        apply (tdiv_eq_zero_iff_natAbs_lt _ _ hsz).mpr
        rw [habs _ hle, Int.natAbs_ofNat]
        omega
      simp only [strided_iterator.eqB, strided_iterator.sub, hz]
      rfl
    cases fuel with
    | zero => rfl
    | succ f =>
      simp only [stridedTraverse, heq]
      simp
  | succ n ih =>
    intro k hk fuel hfuel
    obtain ⟨f, rfl⟩ : ∃ f, fuel = f + 1 := ⟨fuel - 1, by omega⟩
    have hq : L / s = k + n + 1 := by omega
    have h1 : s * (L / s) = k * s + (n + 1) * s := by rw [hq]; ring
    have hns : s ≤ (n + 1) * s := Nat.le_mul_of_pos_left s (Nat.succ_pos n)
    have hle : k * s + s ≤ L := by omega
    have hne : strided_iterator.eqB ⟨((k * s : Nat) : Int), (s : Int)⟩
        ⟨(L : Int), (s : Int)⟩ = false := by
      have hnz : (((k * s : Nat) : Int) - (L : Int)).tdiv (s : Int) ≠ 0 := by
        apply tdiv_ne_zero_of_natAbs_le _ _ hsz
        rw [habs _ (by omega), Int.natAbs_ofNat]
        omega
      simp only [strided_iterator.eqB, strided_iterator.sub,
        beq_eq_false_iff_ne, ne_eq]
      exact hnz
    have hinc : (⟨((k * s : Nat) : Int), (s : Int)⟩ : strided_iterator).inc =
        ⟨(((k + 1) * s : Nat) : Int), (s : Int)⟩ := by
      simp only [strided_iterator.inc]
      congr 1
      push_cast
      ring
    simp only [stridedTraverse, hne, Bool.false_eq_true, if_false, hinc]
    rw [ih (k + 1) (by omega) f (by omega), List.range'_succ, List.map_cons]

/-- C4: strided size law.  For an underlying sequence of length `L` and
stride `s > 0`, `strided(seq, s).size()` is `L / s` with truncating integer
division, the increment-until-equal traversal visits exactly `L / s`
cursors whose underlying positions are `0, s, 2s, ...` (so the `i`-th
dereference reads `seq[i*s]`), and every visited position leaves a full
stride before `L` — elements past the last full stride multiple are never
visited. -/
theorem strided_size_law (L s : Nat) (hs : 0 < s) :
    strided_size 0 (L : Int) (s : Int) = ((L / s : Nat) : Int) ∧
      ∀ fuel, L / s ≤ fuel →
        stridedTraverse fuel ⟨0, (s : Int)⟩ ⟨(L : Int), (s : Int)⟩ =
            (List.range (L / s)).map (fun i : Nat => ((i * s : Nat) : Int)) ∧
          (∀ (α : Type) (seq : Nat → α),
            (stridedTraverse fuel ⟨0, (s : Int)⟩ ⟨(L : Int), (s : Int)⟩).map
                (fun p : Int => seq p.toNat) =
              (List.range (L / s)).map (fun i : Nat => seq (i * s))) ∧
          ∀ p ∈ stridedTraverse fuel ⟨0, (s : Int)⟩ ⟨(L : Int), (s : Int)⟩,
            p + (s : Int) ≤ (L : Int) := by
  have hbegin : (((0 * s : Nat) : Int)) = (0 : Int) := by simp
  have htrav : ∀ fuel, L / s ≤ fuel →
      stridedTraverse fuel ⟨0, (s : Int)⟩ ⟨(L : Int), (s : Int)⟩ =
        (List.range (L / s)).map (fun i : Nat => ((i * s : Nat) : Int)) := by
    intro fuel hf
    have h := stridedTraverse_spec L s hs (L / s) 0 (by omega) fuel hf
    rw [hbegin] at h
    rw [h, List.range_eq_range']
  constructor
  · show ((L : Int) - 0).tdiv (s : Int) = ((L / s : Nat) : Int)
    rw [sub_zero]
    exact (Int.ofNat_tdiv L s).symm
  · intro fuel hf
    refine ⟨htrav fuel hf, ?_, ?_⟩
    · intro α seq
      rw [htrav fuel hf, List.map_map]
      apply List.map_congr_left
      intro i _
      show seq (((i * s : Nat) : Int)).toNat = seq (i * s)
      congr 1
    · intro p hp
      rw [htrav fuel hf] at hp
      obtain ⟨i, hi, rfl⟩ := List.mem_map.mp hp
      rw [List.mem_range] at hi
      have h1 : (i + 1) * s ≤ (L / s) * s := Nat.mul_le_mul_right s (by omega)
      have h2 : (L / s) * s ≤ L := Nat.div_mul_le_self L s
      have h3 : i * s + s ≤ L := by
        have : (i + 1) * s = i * s + s := by ring
        omega
      exact_mod_cast h3

/-- C4 witness: a sequence of length 6 with stride 2 has size 3 and its
traversal visits underlying positions `[0, 2, 4]`. -/
theorem strided_size_law_witness :
    strided_size 0 ((6 : Nat) : Int) ((2 : Nat) : Int) =
      (((6 : Nat) / (2 : Nat) : Nat) : Int) :=
  (strided_size_law 6 2 (by decide)).1
